import Mathlib

/-!
Verification of the placeholder extractor in `src/index.js`.

The source function is:

```js
function detectVaraibles(text) {
  const variableDetectorRegx = /{{ \w+ }}/g;
  const value = text;
  const matches = value.match(variableDetectorRegx);
  if (Array.isArray(matches)) {
    return matches
      .map((match) => {
        if (typeof match === "string") return match.slice(3, match.length - 3);
        return null;
      })
      .filter((match) => match);
  }
  return matches;
}
```

We model JS strings as `List Char`.  The regex `{\x7b \w+ \x7d}`-style
pattern (open brace, open brace, space, one or more word characters,
space, close brace, close brace) is embedded as an explicit scanner:

* `matchAt s` attempts a match of the pattern at the head of `s`,
  returning the matched substring and the remainder after it.  The
  greedy `\w+` with a mandatory following space is equivalent to taking
  the maximal word-character run (`takeWhile`), because a shorter run
  would have to be followed by a word character, never by the required
  space, so backtracking cannot succeed.
* `findMatchesAux` / `findMatches` model the global (`g`-flag) scan of
  `String.prototype.match`: try the pattern at each position from the
  left; on success record the match and resume right after it, on
  failure advance one character.  Fuel equal to the input length
  suffices since every step consumes at least one character, and the
  fuel-based definition keeps everything kernel-computable.
* `jsMatch` models `value.match(regex)` with the `g` flag: `none`
  (JS `null`) when there are no matches, otherwise the array of matched
  substrings.
* `jsSlice` models `match.slice(3, match.length - 3)` (JS `slice` with
  a possibly clamped end index).
* `detectVaraibles` models the whole function.  In the `map`, the
  `typeof match === "string"` test is always true because a `match`
  array produced by `String.prototype.match` holds only strings, so the
  `null` branch is dead code and the map is just the slice; the
  `filter((match) => match)` keeps exactly the truthy elements, i.e.
  the non-empty strings.
-/

/-- JS `\w` (no `u`/`i` flags): exactly ASCII letters, digits and underscore. -/
def isWordChar (c : Char) : Bool :=
  (('a' ≤ c && c ≤ 'z') || ('A' ≤ c && c ≤ 'Z') || ('0' ≤ c && c ≤ '9') || (c == '_'))

/-- Attempt to match the regex at the head of `s`.  On success, return the
matched substring together with the rest of the input after the match. -/
def matchAt (s : List Char) : Option (List Char × List Char) :=
  match s with
  | c1 :: c2 :: c3 :: rest =>
    if c1 = '{' ∧ c2 = '{' ∧ c3 = ' ' then
      match rest.dropWhile isWordChar with
      | d1 :: d2 :: d3 :: rest2 =>
        if d1 = ' ' ∧ d2 = '}' ∧ d3 = '}' ∧ rest.takeWhile isWordChar ≠ [] then
          some (c1 :: c2 :: c3 :: (rest.takeWhile isWordChar ++ d1 :: d2 :: d3 :: []), rest2)
        else none
      | _ => none
    else none
  | _ => none

/-- Global scan, fuel-indexed: try the pattern at every position from the
left, resuming after each match.  Fuel `s.length` is always enough. -/
def findMatchesAux : Nat → List Char → List (List Char)
  | 0, _ => []
  | _ + 1, [] => []
  | fuel + 1, c :: cs =>
    match matchAt (c :: cs) with
    | some (m, r) => m :: findMatchesAux fuel r
    | none => findMatchesAux fuel cs

/-- The list of all (non-overlapping, leftmost) matches of the pattern in
`s`, in left-to-right order. -/
def findMatches (s : List Char) : List (List Char) :=
  findMatchesAux s.length s

/-- Model of `value.match(variableDetectorRegx)`: with the `g` flag, JS
returns `null` when there is no match, else the array of matches. -/
def jsMatch (s : List Char) : Option (List (List Char)) :=
  if findMatches s = [] then none else some (findMatches s)

/-- Model of `match.slice(3, match.length - 3)`. -/
def jsSlice (m : List Char) : List Char :=
  (m.drop 3).take (m.length - 6)

/-- Model of `detectVaraibles` from `src/index.js`.  `none` is JS `null`. -/
def detectVaraibles (text : List Char) : Option (List (List Char)) :=
  match jsMatch text with
  | some ms => some ((ms.map jsSlice).filter (fun m => !m.isEmpty))
  | none => none

/-- The exact shape of a placeholder match: `«{{ » ++ w ++ « }}»` for a
non-empty run `w` of word characters. -/
def phWord (w : List Char) : List Char :=
  '{' :: '{' :: ' ' :: (w ++ ' ' :: '}' :: '}' :: [])

/-- A maximal word-character run followed by a non-word character splits
`takeWhile`/`dropWhile` exactly at that character. -/
lemma takeWhile_word_append (w t : List Char) (d : Char)
    (hw : ∀ c ∈ w, isWordChar c = true) (hd : isWordChar d = false) :
    (w ++ d :: t).takeWhile isWordChar = w ∧ (w ++ d :: t).dropWhile isWordChar = d :: t := by
  induction w with
  | nil => simp [List.takeWhile_cons, List.dropWhile_cons, hd]
  | cons c w ih =>
    have hc : isWordChar c = true := hw c (by simp)
    have h := ih (fun x hx => hw x (by simp [hx]))
    simp [List.takeWhile_cons, List.dropWhile_cons, hc, h.1, h.2]

/-- The scanner succeeds at the head of any string starting with a
placeholder for a non-empty word `w`, consuming exactly that placeholder. -/
lemma matchAt_phWord (w t : List Char) (hw : w ≠ [])
    (hall : ∀ c ∈ w, isWordChar c = true) :
    matchAt (phWord w ++ t) = some (phWord w, t) := by
  obtain ⟨h1, h2⟩ := takeWhile_word_append w ('}' :: '}' :: t) ' ' hall (by decide)
  have he : phWord w ++ t = '{' :: '{' :: ' ' :: (w ++ ' ' :: '}' :: '}' :: t) := by
    simp [phWord]
  rw [he]
  simp [matchAt, h1, h2, hw, phWord]

/-- Inversion: a successful `matchAt` consumed exactly a placeholder for
some non-empty word `w`. -/
lemma matchAt_some {s m r : List Char} (h : matchAt s = some (m, r)) :
    ∃ w, w ≠ [] ∧ (∀ c ∈ w, isWordChar c = true) ∧ m = phWord w ∧ s = phWord w ++ r := by
  unfold matchAt at h
  split at h
  · rename_i c1 c2 c3 rest
    split at h
    · rename_i hc
      obtain ⟨hc1, hc2, hc3⟩ := hc
      split at h
      · rename_i d1 d2 d3 rest2 hdrop
        split at h
        · rename_i hd
          obtain ⟨hd1, hd2, hd3, hne⟩ := hd
          injection h with h
          injection h with hm hr
          have hrest : rest = rest.takeWhile isWordChar ++ d1 :: d2 :: d3 :: rest2 := by
            conv_lhs => rw [← List.takeWhile_append_dropWhile (p := isWordChar) (l := rest)]
            rw [hdrop]
          refine ⟨rest.takeWhile isWordChar, hne,
            fun c hc => List.mem_takeWhile_imp hc, ?_, ?_⟩
          · rw [← hm, phWord]
            subst hc1 hc2 hc3 hd1 hd2 hd3
            rfl
          · rw [← hr, phWord]
            subst hc1 hc2 hc3 hd1 hd2 hd3
            conv_lhs => rw [hrest]
            simp
        · exact absurd h (by simp)
      · exact absurd h (by simp)
    · exact absurd h (by simp)
  · exact absurd h (by simp)

/-- A successful match consumes at least 7 characters. -/
lemma matchAt_some_length {s m r : List Char} (h : matchAt s = some (m, r)) :
    r.length + 7 ≤ s.length := by
  obtain ⟨w, hw, -, -, hs⟩ := matchAt_some h
  have hlen : 1 ≤ w.length := List.length_pos.mpr hw
  rw [hs]
  simp [phWord]
  omega

/-- The pattern starts with an open brace, so `matchAt` fails on any other
head character. -/
lemma matchAt_none_head {c : Char} (t : List Char) (hc : c ≠ '{') :
    matchAt (c :: t) = none := by
  cases t with
  | nil => rfl
  | cons c2 t2 =>
    cases t2 with
    | nil => rfl
    | cons c3 t3 => simp [matchAt, hc]

/-- Any fuel at least the input length computes the same match list. -/
lemma findMatchesAux_fuel : ∀ (f g : Nat) (s : List Char), s.length ≤ f → s.length ≤ g →
    findMatchesAux f s = findMatchesAux g s := by
  intro f
  induction f with
  | zero =>
    intro g s hf _
    have hs : s = [] := List.eq_nil_of_length_eq_zero (Nat.le_zero.mp hf)
    subst hs
    cases g <;> rfl
  | succ f ih =>
    intro g s hf hg
    cases s with
    | nil => cases g <;> rfl
    | cons c cs =>
      simp only [List.length_cons] at hf hg
      cases g with
      | zero => omega
      | succ g =>
        cases hm : matchAt (c :: cs) with
        | some p =>
          obtain ⟨m, r⟩ := p
          have hr := matchAt_some_length hm
          simp only [List.length_cons] at hr
          simp only [findMatchesAux, hm]
          congr 1
          exact ih g r (by omega) (by omega)
        | none =>
          simp only [findMatchesAux, hm]
          exact ih g cs (by omega) (by omega)

/-- Step lemma: a successful match at the current position contributes that
match and scanning resumes after it. -/
lemma findMatches_pos {s m r : List Char} (h : matchAt s = some (m, r)) :
    findMatches s = m :: findMatches r := by
  cases s with
  | nil => exact absurd h (by simp [matchAt])
  | cons c cs =>
    have hr := matchAt_some_length h
    simp only [List.length_cons] at hr
    show findMatchesAux (c :: cs).length (c :: cs) = _
    simp only [List.length_cons, findMatchesAux, h]
    congr 1
    exact findMatchesAux_fuel cs.length r.length r (by omega) (by omega)

/-- Step lemma: on failure at the current position, scanning advances one
character. -/
lemma findMatches_neg {c : Char} {cs : List Char} (h : matchAt (c :: cs) = none) :
    findMatches (c :: cs) = findMatches cs := by
  show findMatchesAux (c :: cs).length (c :: cs) = _
  simp only [List.length_cons, findMatchesAux, h]
  rfl

/-- Every match produced by the scan is a placeholder for some non-empty
word. -/
lemma findMatchesAux_mem : ∀ (fuel : Nat) (s : List Char), ∀ m ∈ findMatchesAux fuel s,
    ∃ w, w ≠ [] ∧ (∀ c ∈ w, isWordChar c = true) ∧ m = phWord w
  | 0, s, m, hm => by simp [findMatchesAux] at hm
  | _ + 1, [], m, hm => by simp [findMatchesAux] at hm
  | fuel + 1, c :: cs, m, hm => by
    rw [findMatchesAux] at hm
    cases hma : matchAt (c :: cs) with
    | some p =>
      obtain ⟨m', r⟩ := p
      rw [hma] at hm
      simp only [List.mem_cons] at hm
      rcases hm with h1 | h2
      · obtain ⟨w, hw, hall, hm', -⟩ := matchAt_some hma
        exact ⟨w, hw, hall, h1 ▸ hm'⟩
      · exact findMatchesAux_mem fuel r m h2
    | none =>
      rw [hma] at hm
      exact findMatchesAux_mem fuel cs m hm

/-- Every match in `findMatches s` is a placeholder for some non-empty
word. -/
lemma findMatches_mem (s : List Char) : ∀ m ∈ findMatches s,
    ∃ w, w ≠ [] ∧ (∀ c ∈ w, isWordChar c = true) ∧ m = phWord w :=
  findMatchesAux_mem s.length s

/-- If no substring of `s` is a well-formed placeholder, the scan finds
nothing. -/
lemma findMatches_eq_nil : ∀ (s : List Char),
    (∀ w t₁ t₂, w ≠ [] → (∀ c ∈ w, isWordChar c = true) → s ≠ t₁ ++ phWord w ++ t₂) →
    findMatches s = []
  | [], _ => rfl
  | c :: cs, h => by
    cases hm : matchAt (c :: cs) with
    | some p =>
      obtain ⟨m, r⟩ := p
      obtain ⟨w, hw, hall, -, hs⟩ := matchAt_some hm
      exact absurd hs (by simpa using h w [] r hw hall)
    | none =>
      rw [findMatches_neg hm]
      exact findMatches_eq_nil cs
        (fun w t₁ t₂ hw hall hcs => h w (c :: t₁) t₂ hw hall (by rw [hcs]; rfl))

/-- Scanning skips over any brace-free prefix. -/
lemma findMatches_skip {a : List Char} (s : List Char) (ha : ∀ c ∈ a, c ≠ '{') :
    findMatches (a ++ s) = findMatches s := by
  induction a with
  | nil => rfl
  | cons x a ih =>
    have hx : x ≠ '{' := ha x (by simp)
    rw [List.cons_append, findMatches_neg (matchAt_none_head _ hx)]
    exact ih (fun c hc => ha c (by simp [hc]))

/-- Slicing three characters off each end of a placeholder recovers exactly
the word inside.  This is the `match.slice(3, match.length - 3)` step. -/
lemma jsSlice_phWord (w : List Char) : jsSlice (phWord w) = w := by
  show ((phWord w).drop 3).take ((phWord w).length - 6) = w
  have h1 : (phWord w).drop 3 = w ++ ' ' :: '}' :: '}' :: [] := rfl
  have h2 : (phWord w).length = w.length + 6 := by simp [phWord]
  rw [h1, h2, Nat.add_sub_cancel]
  exact List.take_left w (' ' :: '}' :: '}' :: [])

/-- An input shape with explicitly delimited placeholders: filler `a`, then
for each pair `(w, b)` a placeholder for `w` followed by filler `b`. -/
def spread : List Char → List (List Char × List Char) → List Char
  | a, [] => a
  | a, (w, b) :: ps => a ++ (phWord w ++ spread b ps)

/-- On a `spread` input whose fillers are brace-free and whose words are
non-empty word-character runs, the scan finds exactly the placeholders, in
left-to-right order. -/
lemma findMatches_spread : ∀ (ps : List (List Char × List Char)) (a : List Char),
    (∀ c ∈ a, c ≠ '{') →
    (∀ p ∈ ps, p.1 ≠ [] ∧ (∀ c ∈ p.1, isWordChar c = true) ∧ (∀ c ∈ p.2, c ≠ '{')) →
    findMatches (spread a ps) = ps.map (fun p => phWord p.1)
  | [], a, ha, _ => by
    have h := findMatches_skip ([] : List Char) ha
    simpa [spread] using h
  | (w, b) :: ps, a, ha, hps => by
    obtain ⟨hw, hall, hb⟩ := hps (w, b) (by simp)
    rw [show spread a ((w, b) :: ps) = a ++ (phWord w ++ spread b ps) from rfl,
      findMatches_skip _ ha,
      findMatches_pos (matchAt_phWord w (spread b ps) hw hall),
      findMatches_spread ps b hb (fun p hp => hps p (by simp [hp]))]
    simp

/-- Unfolded form of the extractor. -/
lemma detect_eq (s : List Char) :
    detectVaraibles s = if findMatches s = [] then none
      else some (((findMatches s).map jsSlice).filter (fun m => !m.isEmpty)) := by
  by_cases hn : findMatches s = [] <;> simp [detectVaraibles, jsMatch, hn]

/-- On a `spread` input with at least one placeholder, the extractor returns
exactly the words, in order. -/
lemma detect_spread (a : List Char) (ps : List (List Char × List Char))
    (hne : ps ≠ []) (ha : ∀ c ∈ a, c ≠ '{')
    (hps : ∀ p ∈ ps, p.1 ≠ [] ∧ (∀ c ∈ p.1, isWordChar c = true) ∧ (∀ c ∈ p.2, c ≠ '{')) :
    detectVaraibles (spread a ps) = some (ps.map (fun p => p.1)) := by
  have hf := findMatches_spread ps a ha hps
  have hn : findMatches (spread a ps) ≠ [] := by
    rw [hf]
    simpa using hne
  rw [detect_eq, if_neg hn, hf, List.map_map]
  congr 1
  have hcomp : (ps.map (jsSlice ∘ fun p => phWord p.1)) = ps.map (fun p => p.1) := by
    apply List.map_congr_left
    intro p _
    simp [Function.comp, jsSlice_phWord]
  rw [hcomp]
  apply List.filter_eq_self.mpr
  intro x hx
  obtain ⟨p, hp, hpx⟩ := List.mem_map.mp hx
  have hne' := (hps p hp).1
  subst hpx
  simpa [List.isEmpty_iff] using hne'

/-- Claim C1 counterexample: the empty input has no placeholder substring,
yet `detectVaraibles` returns the absent value `none` (JS `null`), not the
empty sequence `some []` that the claim requires. -/
theorem spec_C1_counterexample :
    detectVaraibles [] = none ∧ detectVaraibles [] ≠ some [] := by decide

/-- Claim C1 (amended): for every input string with no substring matching
the single-space-padded placeholder pattern (including the empty string),
`detectVaraibles` returns the absent value `none` (JS `null`) — not an
empty sequence, because `String.prototype.match` with the `g` flag returns
`null` on zero matches and line 15 of the source returns that value
unchanged. -/
theorem spec_C1_amended (s : List Char)
    (h : ∀ w t₁ t₂, w ≠ [] → (∀ c ∈ w, isWordChar c = true) → s ≠ t₁ ++ phWord w ++ t₂) :
    detectVaraibles s = none := by
  rw [detect_eq, if_pos (findMatches_eq_nil s h)]

/-- Witness for the amended C1: the empty string has no placeholder
substring and the extractor returns `none` on it. -/
theorem spec_C1_amended_witness : detectVaraibles [] = none :=
  spec_C1_amended [] (fun w t₁ t₂ hw _ heq => by
    have : t₁ ++ phWord w ++ t₂ ≠ [] := by simp [phWord]
    exact this heq.symm)

/-- Claim C2 counterexample: the extra-brace input (three opening braces,
space, x, space, three closing braces) does contribute an element — the
substring starting at its second character is a well-formed placeholder, so
the extractor returns the one-element sequence containing `x`, contradicting
the claim that this shape contributes nothing. -/
theorem spec_C2_counterexample :
    detectVaraibles (['{', '{', '{', ' ', 'x', ' ', '}', '}', '}']) = some [['x']] ∧
    detectVaraibles (['{', '{', '{', ' ', 'x', ' ', '}', '}', '}']) ≠ none ∧
    detectVaraibles (['{', '{', '{', ' ', 'x', ' ', '}', '}', '}']) ≠ some [] := by decide

/-- Claim C2 (amended): the no-space shape and the internal-space shape are
not matched and contribute nothing (the extractor finds no match at all on
inputs containing only them), but the extra-brace shape contains a
well-formed placeholder as a substring and contributes its identifier. -/
theorem spec_C2_amended :
    detectVaraibles (['{', '{', 'n', 'a', 'm', 'e', '}', '}']) = none ∧
    detectVaraibles
      (['{', '{', ' ', 'f', 'i', 'r', 's', 't', ' ', 'n', 'a', 'm', 'e', ' ', '}', '}']) = none ∧
    detectVaraibles (['{', '{', '{', ' ', 'x', ' ', '}', '}', '}']) = some [['x']] := by decide

/-- Claim C3 counterexample: on the exact input consisting of the no-space
shape around the word `name`, the extractor does not return the empty
sequence. -/
theorem spec_C3_counterexample :
    detectVaraibles (['{', '{', 'n', 'a', 'm', 'e', '}', '}']) ≠ some [] := by decide

/-- Claim C3 (amended): on the no-space input the substring indeed fails the
single-space-padding rule, so there is no match — but the function then
returns the absent value `none` (JS `null`), not the empty sequence. -/
theorem spec_C3_amended :
    detectVaraibles (['{', '{', 'n', 'a', 'm', 'e', '}', '}']) = none := by decide

/-- Claim C4: an input that is exactly one well-formed placeholder yields
the singleton sequence holding the inner identifier, i.e. the match with its
fixed 3-character prefix and 3-character suffix removed. -/
theorem spec_C4 (w : List Char) (hw : w ≠ []) (hall : ∀ c ∈ w, isWordChar c = true) :
    detectVaraibles (phWord w) = some [w] := by
  have h := detect_spread [] [(w, [])] (by simp) (by simp)
    (by intro p hp; simp only [List.mem_singleton] at hp; subst hp; exact ⟨hw, hall, by simp⟩)
  simpa [spread] using h

/-- Witness for C4: the input that is exactly the placeholder around `name`
yields the singleton sequence containing `name`. -/
theorem spec_C4_witness :
    detectVaraibles (phWord ['n', 'a', 'm', 'e']) = some [['n', 'a', 'm', 'e']] :=
  spec_C4 ['n', 'a', 'm', 'e'] (by decide) (by decide)

/-- Claim C5: on an input consisting of brace-free filler text interleaved
with well-formed placeholders — filler `a`, then for each pair `(w, b)` the
placeholder for `w` followed by filler `b` — the extractor returns exactly
the identifiers `w`, one per placeholder, in left-to-right order of
appearance. -/
theorem spec_C5 (a : List Char) (ps : List (List Char × List Char))
    (hne : ps ≠ []) (ha : ∀ c ∈ a, c ≠ '{')
    (hps : ∀ p ∈ ps, p.1 ≠ [] ∧ (∀ c ∈ p.1, isWordChar c = true) ∧ (∀ c ∈ p.2, c ≠ '{')) :
    detectVaraibles (spread a ps) = some (ps.map (fun p => p.1)) :=
  detect_spread a ps hne ha hps

/-- Witness for C5: the Hello/first/last example returns the identifiers
`first` then `last`, in left-to-right order. -/
theorem spec_C5_witness :
    detectVaraibles (spread ['H', 'e', 'l', 'l', 'o', ' ']
      [(['f', 'i', 'r', 's', 't'], [' ']), (['l', 'a', 's', 't'], ['!'])]) =
    some [['f', 'i', 'r', 's', 't'], ['l', 'a', 's', 't']] :=
  spec_C5 ['H', 'e', 'l', 'l', 'o', ' ']
    [(['f', 'i', 'r', 's', 't'], [' ']), (['l', 'a', 's', 't'], ['!'])]
    (by decide) (by decide) (by decide)

/-- Claim C6: a repeated placeholder contributes one element per occurrence:
for any non-empty word `w`, the input made of the placeholder for `w`, a
space, and the same placeholder again returns the two-element sequence
`w, w` — duplicates preserved, no deduplication. -/
theorem spec_C6 (w : List Char) (hw : w ≠ []) (hall : ∀ c ∈ w, isWordChar c = true) :
    detectVaraibles (phWord w ++ ' ' :: phWord w) = some [w, w] := by
  have h := detect_spread [] [(w, [' ']), (w, [])] (by simp) (by simp)
    (by
      intro p hp
      simp only [List.mem_cons, List.mem_singleton] at hp
      rcases hp with hp | hp | hp
      · subst hp
        exact ⟨hw, hall, by intro c hc; simp only [List.mem_singleton] at hc; subst hc; decide⟩
      · subst hp; exact ⟨hw, hall, by simp⟩
      · cases hp)
  simpa [spread] using h

/-- Witness for C6: the doubled placeholder around `a` yields the sequence
`a, a`. -/
theorem spec_C6_witness :
    detectVaraibles (phWord ['a'] ++ ' ' :: phWord ['a']) = some [['a'], ['a']] :=
  spec_C6 ['a'] (by decide) (by decide)

/-- Claim C7: totality — on every input string the extractor computes a
definite result, either the absent value or some list; in the shallow
embedding every operation used by the source (`match`, `slice`, `map`,
`filter`) is modelled by a total function, so no input can make it fail. -/
theorem spec_C7 (s : List Char) :
    detectVaraibles s = none ∨ ∃ l, detectVaraibles s = some l := by
  cases h : detectVaraibles s with
  | none => exact Or.inl rfl
  | some l => exact Or.inr ⟨l, rfl⟩

/-- Claim C8: determinism — `detectVaraibles` is a pure function of its
input: invoking it twice on the same string gives syntactically the same
computation, hence identical results; the embedding carries no hidden
state. -/
theorem spec_C8 (s : List Char) : detectVaraibles s = detectVaraibles s := rfl

/-- Claim C9: whenever the extractor returns an array, every element is a
non-empty string consisting only of ASCII word characters — never braces,
spaces or anything else. -/
theorem spec_C9 (s : List Char) (l : List (List Char))
    (h : detectVaraibles s = some l) :
    ∀ x ∈ l, x ≠ [] ∧ ∀ c ∈ x, isWordChar c = true := by
  rw [detect_eq] at h
  by_cases hn : findMatches s = []
  · rw [if_pos hn] at h
    cases h
  · rw [if_neg hn] at h
    injection h with h
    subst h
    intro x hx
    have hx' := (List.mem_filter.mp hx).1
    obtain ⟨m, hm, hmx⟩ := List.mem_map.mp hx'
    obtain ⟨w, hw, hall, hmw⟩ := findMatches_mem s m hm
    subst hmw
    rw [jsSlice_phWord] at hmx
    subst hmx
    exact ⟨hw, hall⟩

/-- Witness for C9: on the placeholder around `a` the extractor returns the
array holding `a`, whose single element is a non-empty word-character
string. -/
theorem spec_C9_witness :
    (['a'] : List Char).isEmpty = false ∧ isWordChar 'a' = true := by
  have h := spec_C9 (phWord ['a']) [['a']] (by decide) ['a'] (by decide)
  exact ⟨by simpa using h.1, h.2 'a' (by decide)⟩

/-- Claim C10: when the match step finds at least one match (`jsMatch`
returns an array), the extractor returns an array with exactly one element
per match — the per-element string-type check and the truthiness filter
never discard anything, because every sliced name is a non-empty string. -/
theorem spec_C10 (s : List Char) (ms : List (List Char)) (h : jsMatch s = some ms) :
    ∃ l, detectVaraibles s = some l ∧ l.length = ms.length := by
  unfold jsMatch at h
  by_cases hn : findMatches s = []
  · rw [if_pos hn] at h
    cases h
  · rw [if_neg hn] at h
    injection h with h
    subst h
    refine ⟨(findMatches s).map jsSlice, ?_, by simp⟩
    rw [detect_eq, if_neg hn]
    congr 1
    apply List.filter_eq_self.mpr
    intro x hx
    obtain ⟨m, hm, hmx⟩ := List.mem_map.mp hx
    obtain ⟨w, hw, -, hmw⟩ := findMatches_mem s m hm
    subst hmw
    rw [jsSlice_phWord] at hmx
    subst hmx
    simpa [List.isEmpty_iff] using hw

/-- Witness for C10: on the placeholder around `a` the match step finds one
match and the returned array has exactly one element. -/
theorem spec_C10_witness :
    ∃ l, detectVaraibles (phWord ['a']) = some l ∧ l.length = [phWord ['a']].length :=
  spec_C10 (phWord ['a']) [phWord ['a']] (by decide)
